import Mathlib

/-!
Verification of the adaptive text-fitting engine of LegendGephi
(src/LegendGephi.py).

Shallow embedding conventions:
* Python strings are modelled as `List Char` (ASCII behaviour of the
  relevant Python string methods is modelled).
* Python floats are modelled as `ℚ`; the float literals of the source
  (0.6, 0.3, 0.95, 1.2, 0.5) become the exact rationals 3/5, 3/10,
  19/20, 6/5, 1/2.
* Python `int(x)` (truncation toward zero) is modelled by `pyInt`.
* The per-label processing of `adjust_node_labels_in_tree` is modelled
  as a pure function `processLabel` on one label's data; an
  exception escaping the pass (e.g. `float(...)` raising ValueError)
  is modelled as the outcome `LabelOutcome.crashed`.
-/

namespace LegendGephi

/-- Whitespace characters recognised by Python `str.split()` /
`str.strip()` (ASCII fragment): space, tab, newline, carriage return,
vertical tab, form feed. -/
def pyIsSpace (c : Char) : Bool :=
  c == ' ' || c == '\t' || c == '\n' || c == '\r' ||
  c == Char.ofNat 11 || c == Char.ofNat 12

/-- Python `str.strip()`: remove leading and trailing whitespace. -/
def pyStrip (s : List Char) : List Char :=
  (((s.dropWhile pyIsSpace).reverse).dropWhile pyIsSpace).reverse

/-- Python `str.capitalize()` (ASCII fragment): first character
uppercased, all remaining characters lowercased. -/
def pyCapitalize : List Char → List Char
  | [] => []
  | c :: cs => c.toUpper :: cs.map Char.toLower

/-- The normalization the claim C2 describes in words: uppercase the
first character and leave the remaining characters as in the raw
input.  Used only to compare the claim against `pyCapitalize`. -/
def upperFirstOnly : List Char → List Char
  | [] => []
  | c :: cs => c.toUpper :: cs

/-- Helper for `splitWS`: accumulates the current word (in reverse). -/
def splitWSAux : List Char → List Char → List (List Char)
  | [], cur => if cur = [] then [] else [cur.reverse]
  | c :: rest, cur =>
    if pyIsSpace c then
      if cur = [] then splitWSAux rest [] else cur.reverse :: splitWSAux rest []
    else splitWSAux rest (c :: cur)

/-- Python `text.split()` with no argument: split on runs of
whitespace, never producing empty words. -/
def splitWS (s : List Char) : List (List Char) :=
  splitWSAux s []

/-- Python `' '.join(words)`. -/
def joinSp : List (List Char) → List Char
  | [] => []
  | [l] => l
  | l :: ls => l ++ ' ' :: joinSp ls

/-- Python `int(x)` on a float: truncation toward zero. -/
def pyInt (q : ℚ) : ℤ :=
  if q < 0 then ⌈q⌉ else ⌊q⌋

/-- Python `min(list)` for a nonempty list (the source only applies it
to nonempty lists; the value on `[]` is irrelevant). -/
def listMin : List ℚ → ℚ
  | [] => 0
  | x :: xs => xs.foldl min x

/-- Numeric value of a decimal digit character. -/
def digitVal (c : Char) : ℕ := c.toNat - 48

/-- Value of a list of decimal digit characters. -/
def natOfDigits (l : List Char) : ℕ :=
  l.foldl (fun a c => 10 * a + digitVal c) 0

/-- Model of the Python builtin `float(s)` restricted to plain decimal
literals with an optional sign: `[+|-] digits [. digits]` with at
least one digit.  `none` models `float` raising `ValueError`.  (The
source relies on `float` only through
`float(text_elem.get('font-size', '12'))`.) -/
def parseFloat (s : List Char) : Option ℚ :=
  let core : List Char → Option ℚ := fun t =>
    let ip := t.takeWhile Char.isDigit
    let rest := t.dropWhile Char.isDigit
    match rest with
    | [] => if ip = [] then none else some (natOfDigits ip)
    | '.' :: rest2 =>
      let fp := rest2.takeWhile Char.isDigit
      let rest3 := rest2.dropWhile Char.isDigit
      if rest3 = [] then
        if ip = [] ∧ fp = [] then none
        else some ((natOfDigits ip : ℚ) + (natOfDigits fp : ℚ) / (10 : ℚ) ^ fp.length)
      else none
    | _ => none
  match s with
  | '-' :: t => (core t).map (fun q => -q)
  | '+' :: t => core t
  | t => core t

/-- `estimate_text_width` (src/LegendGephi.py lines 74-92):
`len(text) * float(font_size) * 0.6`.  The `font_family` parameter of
the source is unused by the computation and is omitted. -/
def estimate_text_width (text : List Char) (font_size : ℚ) : ℚ :=
  (text.length : ℚ) * font_size * (3/5)

/-- The word-packing loop of `wrap_text_to_fit_diameter`
(src/LegendGephi.py lines 124-140): state is the remaining words, the
accumulated joined lines, the words of the current line, and the
current line width. -/
def wrap_loop (font_size node_diameter space_width : ℚ) :
    List (List Char) → List (List Char) → List (List Char) → ℚ → List (List Char)
  | [], lines, current_line, _ =>
    if current_line = [] then lines else lines ++ [joinSp current_line]
  | word :: rest, lines, current_line, current_width =>
    let word_width := estimate_text_width word font_size
    if current_line ≠ [] ∧ current_width + space_width + word_width > node_diameter then
      wrap_loop font_size node_diameter space_width rest
        (lines ++ [joinSp current_line]) [word] word_width
    else
      wrap_loop font_size node_diameter space_width rest lines
        (current_line ++ [word])
        ((if current_line = [] then current_width else current_width + space_width) + word_width)

/-- `wrap_text_to_fit_diameter` (src/LegendGephi.py lines 94-142). -/
def wrap_text_to_fit_diameter (text : List Char) (font_size node_diameter : ℚ) :
    List (List Char) :=
  if estimate_text_width text font_size ≤ node_diameter then [text]
  else
    let words := splitWS text
    if words = [] then [text]
    else wrap_loop font_size node_diameter (font_size * (3/10)) words [] [] 0

/-- `can_fit_with_wrapping` (src/LegendGephi.py lines 144-175).
Returns the pair (does it fit, wrapped lines); the source's early
`return False, lines` on the first overflowing line is the same
function as the `List.all` check here. -/
def can_fit_with_wrapping (text : List Char) (font_size node_diameter : ℚ) :
    Bool × List (List Char) :=
  let lines := wrap_text_to_fit_diameter text font_size node_diameter
  let available_width := node_diameter * (19/20)
  if lines.all fun line => decide (estimate_text_width line font_size ≤ available_width) then
    let available_height := node_diameter * (19/20)
    let line_height := font_size * (6/5)
    let total_height := ((lines.length : ℚ) - 1) * line_height + font_size
    (decide (total_height ≤ available_height), lines)
  else (false, lines)

/-- The `while left <= right` binary-search loop of
`calculate_optimal_font_size` (src/LegendGephi.py lines 197-207). -/
def binary_search_loop (text : List Char) (node_diameter : ℚ)
    (left right optimal_size : ℚ) : ℚ :=
  if h : left ≤ right then
    if (can_fit_with_wrapping text ((left + right) / 2) node_diameter).1 then
      binary_search_loop text node_diameter ((left + right) / 2 + 1/2) right
        ((left + right) / 2)
    else
      binary_search_loop text node_diameter left ((left + right) / 2 - 1/2)
        optimal_size
  else optimal_size
termination_by (⌊2 * (right - left)⌋ + 1).toNat
decreasing_by
  · have e : 2 * (right - ((left + right) / 2 + 1/2)) = (right - left) - 1 := by ring
    rw [e]
    have h0 : (0:ℚ) ≤ right - left := by linarith
    have h1 := Int.floor_sub_int (right - left) 1
    push_cast at h1
    have h2 : ⌊right - left⌋ ≤ ⌊2 * (right - left)⌋ := Int.floor_le_floor (by linarith)
    have h3 : (0:ℤ) ≤ ⌊right - left⌋ := Int.floor_nonneg.mpr h0
    rw [h1]
    omega
  · have e : 2 * (((left + right) / 2 - 1/2) - left) = (right - left) - 1 := by ring
    rw [e]
    have h0 : (0:ℚ) ≤ right - left := by linarith
    have h1 := Int.floor_sub_int (right - left) 1
    push_cast at h1
    have h2 : ⌊right - left⌋ ≤ ⌊2 * (right - left)⌋ := Int.floor_le_floor (by linarith)
    have h3 : (0:ℤ) ≤ ⌊right - left⌋ := Int.floor_nonneg.mpr h0
    rw [h1]
    omega

/-- `calculate_optimal_font_size` (src/LegendGephi.py lines 177-209):
binary search starting from `optimal_size = min_font_size`, returning
`max(optimal_size, min_font_size)`. -/
def calculate_optimal_font_size (text : List Char)
    (node_diameter min_font_size max_font_size : ℚ) : ℚ :=
  max (binary_search_loop text node_diameter min_font_size max_font_size min_font_size)
    min_font_size

/-- `calc_min_font_size` of the per-label pass (src/LegendGephi.py
line 311): `int(min_font_size) if min_font_size is not None else 4`. -/
def calcMinFont (minF : Option ℚ) : ℚ :=
  match minF with
  | some m => ((pyInt m : ℤ) : ℚ)
  | none => 4

/-- `calc_max_font_size` of the per-label pass (src/LegendGephi.py
line 312): `int(actual_max_font_size) if actual_max_font_size is not
None else 100`. -/
def calcMaxFont (actualMax : Option ℚ) : ℚ :=
  match actualMax with
  | some m => ((pyInt m : ℤ) : ℚ)
  | none => 100

/-- The wrap-or-single-line computation the pass performs both for
`lines_initial` (src/LegendGephi.py lines 302-307) and for
`lines_to_use` (lines 340-346). -/
def finalLines (text : List Char) (font_size node_diameter : ℚ) : List (List Char) :=
  if estimate_text_width text font_size > node_diameter then
    wrap_text_to_fit_diameter text font_size node_diameter
  else [text]

/-- The auto-font-size computation for one label (src/LegendGephi.py
lines 299-324): wrap at the current font size; in the multi-line case
solve per line and take the minimum, otherwise solve on the whole
text. -/
def labelOptimalSize (text : List Char) (font_size node_diameter : ℚ)
    (minF actualMax : Option ℚ) : ℚ :=
  let lines_initial := finalLines text font_size node_diameter
  let calc_min := calcMinFont minF
  let calc_max := calcMaxFont actualMax
  if 1 < lines_initial.length then
    listMin (lines_initial.map fun line =>
      calculate_optimal_font_size line node_diameter calc_min calc_max)
  else
    calculate_optimal_font_size text node_diameter calc_min calc_max

/-- Outcome of processing one text label in
`adjust_node_labels_in_tree`: skipped (empty stripped text), crashed
(an uncaught exception, e.g. `float` on an unparseable font-size
attribute), or processed with a final font size and final line
list. -/
inductive LabelOutcome where
  | skipped : LabelOutcome
  | crashed : LabelOutcome
  | processed : ℚ → List (List Char) → LabelOutcome
deriving DecidableEq

/-- The per-label computation after the font size has been obtained
(src/LegendGephi.py lines 299-346 with `font_size` already parsed). -/
def labelSizingCore (text : List Char) (font_size0 node_diameter : ℚ)
    (auto : Bool) (minF actualMax : Option ℚ) : LabelOutcome :=
  let font_size :=
    if auto then labelOptimalSize text font_size0 node_diameter minF actualMax
    else font_size0
  .processed font_size (finalLines text font_size node_diameter)

/-- The per-label computation on already-normalized text
(src/LegendGephi.py lines 292-346): parse the font-size attribute
(default '12'), then size and wrap. -/
def labelCore (text : List Char) (fsAttr : Option (List Char))
    (node_diameter : ℚ) (auto : Bool) (minF actualMax : Option ℚ) : LabelOutcome :=
  if text = [] then .skipped
  else
    match parseFloat (fsAttr.getD ['1', '2']) with
    | none => .crashed
    | some font_size => labelSizingCore text font_size node_diameter auto minF actualMax

/-- Processing of one text label by `adjust_node_labels_in_tree`
(src/LegendGephi.py lines 279-346): strip the raw text, skip if empty,
capitalize, parse the font-size attribute with default '12' (an
unparseable value raises, modelled as `.crashed`), optionally compute
the auto font size, and wrap at the final size. -/
def processLabel (raw : List Char) (fsAttr : Option (List Char))
    (node_diameter : ℚ) (auto : Bool) (minF actualMax : Option ℚ) : LabelOutcome :=
  let text_content := pyStrip raw
  if text_content = [] then .skipped
  else
    let text := pyCapitalize text_content
    match parseFloat (fsAttr.getD ['1', '2']) with
    | none => .crashed
    | some font_size =>
      let fs :=
        if auto then labelOptimalSize text font_size node_diameter minF actualMax
        else font_size
      .processed fs (finalLines text fs node_diameter)

/-- The search for the largest node's label text (src/LegendGephi.py
lines 249-258): the first label whose node diameter is within 0.01 of
the maximum and whose stripped text is nonempty.  (The source's loop
keeps overwriting `max_node_text` with empty matches and only breaks
on a nonempty one; the subsequent `if max_node_text:` check makes that
equivalent to this first-nonempty-match search.) -/
def findMaxText : List (List Char × ℚ) → ℚ → Option (List Char)
  | [], _ => none
  | (t, dia) :: rest, maxD =>
    if |dia - maxD| < 1/100 ∧ pyStrip t ≠ [] then some (pyStrip t)
    else findMaxText rest maxD

/-- `actual_max_font_size` of the two-phase ceiling pass
(src/LegendGephi.py lines 246-270), given that auto font sizing is on
and a max font size was supplied: when the maximum diameter is
positive and a nonempty label text is found on a largest node, the
ceiling is the optimal size computed for that text, otherwise the
supplied maximum is kept. -/
def computeActualMax (labels : List (List Char × ℚ)) (maxD : ℚ)
    (minF : Option ℚ) (maxF : ℚ) : Option ℚ :=
  if 0 < maxD then
    match findMaxText labels maxD with
    | some t => some (calculate_optimal_font_size t maxD (minF.getD 4) maxF)
    | none => some maxF
  else some maxF

/-! ### Lemmas about splitting and joining words -/

lemma splitWSAux_good : ∀ (s cur : List Char),
    (∀ c ∈ cur, pyIsSpace c = false) →
    ∀ w ∈ splitWSAux s cur, w ≠ [] ∧ ∀ c ∈ w, pyIsSpace c = false := by
  intro s
  induction s with
  | nil =>
    intro cur hcur w hw
    simp only [splitWSAux] at hw
    split at hw
    · simp at hw
    · next hne =>
      simp only [List.mem_singleton] at hw
      subst hw
      refine ⟨by simpa using hne, ?_⟩
      intro c hc
      exact hcur c (List.mem_reverse.mp hc)
  | cons c rest ih =>
    intro cur hcur w hw
    simp only [splitWSAux] at hw
    by_cases hsp : pyIsSpace c
    · rw [if_pos hsp] at hw
      split at hw
      · exact ih [] (by simp) w hw
      · rcases List.mem_cons.mp hw with h1 | h1
        · subst h1
          next hne =>
          refine ⟨by simpa using hne, ?_⟩
          intro x hx
          exact hcur x (List.mem_reverse.mp hx)
        · exact ih [] (by simp) w h1
    · rw [if_neg hsp] at hw
      refine ih (c :: cur) ?_ w hw
      intro x hx
      rcases List.mem_cons.mp hx with h1 | h1
      · subst h1; simpa using hsp
      · exact hcur x h1

lemma splitWS_good (s : List Char) :
    ∀ w ∈ splitWS s, w ≠ [] ∧ ∀ c ∈ w, pyIsSpace c = false :=
  splitWSAux_good s [] (by simp)

lemma splitWSAux_append_space (b : List Char) : ∀ (a cur : List Char),
    splitWSAux (a ++ ' ' :: b) cur = splitWSAux a cur ++ splitWSAux b [] := by
  intro a
  induction a with
  | nil =>
    intro cur
    have hsp : pyIsSpace ' ' = true := by decide
    simp only [List.nil_append, splitWSAux, hsp, if_true]
    split <;> simp
  | cons c a ih =>
    intro cur
    by_cases hsp : pyIsSpace c
    · simp only [List.cons_append, splitWSAux, hsp, if_true]
      split <;> simp [ih]
    · simp only [List.cons_append, splitWSAux, hsp, if_false, Bool.false_eq_true]
      exact ih (c :: cur)

lemma splitWSAux_no_ws : ∀ (w : List Char), (∀ c ∈ w, pyIsSpace c = false) →
    ∀ cur, splitWSAux w cur =
      if cur = [] ∧ w = [] then [] else [cur.reverse ++ w] := by
  intro w
  induction w with
  | nil =>
    intro _ cur
    by_cases hcur : cur = [] <;> simp [splitWSAux, hcur]
  | cons c w ih =>
    intro h cur
    have hc : pyIsSpace c = false := h c (by simp)
    simp only [splitWSAux, hc, Bool.false_eq_true, if_false]
    rw [ih (fun x hx => h x (by simp [hx])) (c :: cur)]
    simp

lemma splitWS_no_ws (w : List Char) (h : ∀ c ∈ w, pyIsSpace c = false)
    (hne : w ≠ []) : splitWS w = [w] := by
  simp [splitWS, splitWSAux_no_ws w h [], hne]

lemma joinSp_cons (l : List Char) (ls : List (List Char)) :
    joinSp (l :: ls) = if ls = [] then l else l ++ ' ' :: joinSp ls := by
  cases ls <;> simp [joinSp]

lemma joinSp_append_singleton : ∀ (ls : List (List Char)) (x : List Char),
    ls ≠ [] → joinSp (ls ++ [x]) = joinSp ls ++ ' ' :: x := by
  intro ls
  induction ls with
  | nil => intro x h; exact absurd rfl h
  | cons l ls ih =>
    intro x _
    by_cases hls : ls = []
    · subst hls; simp [joinSp]
    · rw [List.cons_append, joinSp_cons, if_neg (by simp [hls]),
        joinSp_cons l ls, if_neg hls, ih x hls]
      simp

lemma splitWS_joinSp : ∀ (ws : List (List Char)),
    (∀ w ∈ ws, w ≠ [] ∧ ∀ c ∈ w, pyIsSpace c = false) →
    splitWS (joinSp ws) = ws := by
  intro ws
  induction ws with
  | nil => intro _; simp [joinSp, splitWS, splitWSAux]
  | cons w ws ih =>
    intro h
    obtain ⟨hw, hwc⟩ := h w (by simp)
    by_cases hws : ws = []
    · subst hws
      simp only [joinSp]
      exact splitWS_no_ws w hwc hw
    · rw [joinSp_cons, if_neg hws]
      rw [splitWS, splitWSAux_append_space (joinSp ws) w []]
      rw [splitWSAux_no_ws w hwc [], if_neg (by simp [hw])]
      have : splitWSAux (joinSp ws) [] = ws := ih (fun x hx => h x (by simp [hx]))
      rw [this]
      simp

lemma splitWS_join_push (lines current : List (List Char))
    (_hcur : current ≠ [])
    (hgood : ∀ w ∈ current, w ≠ [] ∧ ∀ c ∈ w, pyIsSpace c = false) :
    splitWS (joinSp (lines ++ [joinSp current])) =
      splitWS (joinSp lines) ++ current := by
  by_cases hl : lines = []
  · subst hl
    simp only [List.nil_append, joinSp]
    rw [splitWS_joinSp current hgood]
    simp [joinSp, splitWS, splitWSAux]
  · rw [joinSp_append_singleton lines (joinSp current) hl]
    rw [splitWS, splitWSAux_append_space (joinSp current) (joinSp lines) []]
    rw [show splitWSAux (joinSp current) [] = current from splitWS_joinSp current hgood]
    rfl

lemma wrap_loop_words (fs d sw : ℚ) :
    ∀ (ws lines current : List (List Char)) (cw : ℚ),
    (∀ w ∈ ws, w ≠ [] ∧ ∀ c ∈ w, pyIsSpace c = false) →
    (∀ w ∈ current, w ≠ [] ∧ ∀ c ∈ w, pyIsSpace c = false) →
    splitWS (joinSp (wrap_loop fs d sw ws lines current cw)) =
      splitWS (joinSp lines) ++ current ++ ws := by
  intro ws
  induction ws with
  | nil =>
    intro lines current cw _ hcur
    simp only [wrap_loop]
    split
    · next hc => subst hc; simp
    · next hc =>
      rw [splitWS_join_push lines current hc hcur]
      simp
  | cons w rest ih =>
    intro lines current cw hws hcur
    have hw : w ≠ [] ∧ ∀ c ∈ w, pyIsSpace c = false := hws w (by simp)
    have hrest : ∀ x ∈ rest, x ≠ [] ∧ ∀ c ∈ x, pyIsSpace c = false :=
      fun x hx => hws x (by simp [hx])
    simp only [wrap_loop]
    split
    · next hcond =>
      rw [ih (lines ++ [joinSp current]) [w] _ hrest (by simpa using hw)]
      rw [splitWS_join_push lines current hcond.1 hcur]
      simp
    · rw [ih lines (current ++ [w]) _ hrest ?_]
      · simp
      · intro x hx
        rcases List.mem_append.mp hx with h1 | h1
        · exact hcur x h1
        · simpa [List.mem_singleton.mp h1] using hw

/-- C8: for every non-empty whitespace-tokenizable text and every font
size and maximum line width, concatenating the lines returned by
`wrap_text_to_fit_diameter` with single spaces reproduces the original
word sequence: no words are dropped and none are duplicated, in the
original order. -/
theorem wrap_preserves_word_sequence (text : List Char)
    (font_size node_diameter : ℚ) (h : splitWS text ≠ []) :
    splitWS (joinSp (wrap_text_to_fit_diameter text font_size node_diameter)) =
      splitWS text := by
  unfold wrap_text_to_fit_diameter
  split
  · simp [joinSp]
  · simp only [if_neg h]
    rw [wrap_loop_words font_size node_diameter (font_size * (3/10))
      (splitWS text) [] [] 0 (splitWS_good text) (by simp)]
    simp [joinSp, splitWS, splitWSAux]

/-- Witness for C8 at text "aa bb", font size 1, width 1. -/
theorem wrap_preserves_word_sequence_witness :
    splitWS ['a', 'a', ' ', 'b', 'b'] ≠ [] ∧
    splitWS (joinSp (wrap_text_to_fit_diameter ['a', 'a', ' ', 'b', 'b'] 1 1)) =
      splitWS ['a', 'a', ' ', 'b', 'b'] :=
  ⟨by decide, wrap_preserves_word_sequence ['a', 'a', ' ', 'b', 'b'] 1 1 (by decide)⟩

/-! ### The fit check -/

/-- The fit check, unfolded: true iff every wrapped line passes the
0.95-margin width check and the block height passes the 0.95-margin
height check; the line list is returned in both cases. -/
lemma can_fit_spec (text : List Char) (font_size node_diameter : ℚ) :
    ((can_fit_with_wrapping text font_size node_diameter).1 = true ↔
      ((∀ line ∈ wrap_text_to_fit_diameter text font_size node_diameter,
          estimate_text_width line font_size ≤ node_diameter * (19/20)) ∧
        (((wrap_text_to_fit_diameter text font_size node_diameter).length - 1 : ℚ) *
            (font_size * (6/5)) + font_size ≤ node_diameter * (19/20)))) ∧
    (can_fit_with_wrapping text font_size node_diameter).2 =
      wrap_text_to_fit_diameter text font_size node_diameter := by
  have hall : ((wrap_text_to_fit_diameter text font_size node_diameter).all
        fun line => decide (estimate_text_width line font_size ≤ node_diameter * (19/20))) = true ↔
      ∀ line ∈ wrap_text_to_fit_diameter text font_size node_diameter,
        estimate_text_width line font_size ≤ node_diameter * (19/20) := by
    simp [List.all_eq_true]
  constructor
  · simp only [can_fit_with_wrapping]
    split
    · next h =>
      rw [hall] at h
      simp only [decide_eq_true_eq]
      exact ⟨fun hh => ⟨h, hh⟩, fun hh => hh.2⟩
    · next h =>
      rw [hall] at h
      simp only [Bool.false_eq_true, false_iff, not_and]
      intro h1
      exact absurd h1 h
  · simp only [can_fit_with_wrapping]
    split <;> rfl

/-- C5: `can_fit_with_wrapping` calls the wrapper with the raw
diameter as maximum line width, returns true iff every resulting
line's measured width is at most `diameter * 0.95` and the total block
height `(lineCount - 1) * fontSize * 1.2 + fontSize` is at most
`diameter * 0.95`, and returns the (possibly overflowing) line list in
both cases. -/
theorem can_fit_characterization (text : List Char) (font_size node_diameter : ℚ) :
    ((can_fit_with_wrapping text font_size node_diameter).1 = true ↔
      ((∀ line ∈ wrap_text_to_fit_diameter text font_size node_diameter,
          estimate_text_width line font_size ≤ node_diameter * (19/20)) ∧
        (((wrap_text_to_fit_diameter text font_size node_diameter).length - 1 : ℚ) *
            (font_size * (6/5)) + font_size ≤ node_diameter * (19/20)))) ∧
    (can_fit_with_wrapping text font_size node_diameter).2 =
      wrap_text_to_fit_diameter text font_size node_diameter :=
  can_fit_spec text font_size node_diameter

/-- A text with no whitespace characters is never split: the wrapper
returns it as the single line, whatever the width bound. -/
lemma wrap_no_ws (text : List Char) (fs d : ℚ)
    (h : ∀ c ∈ text, pyIsSpace c = false) :
    wrap_text_to_fit_diameter text fs d = [text] := by
  unfold wrap_text_to_fit_diameter
  split
  · rfl
  · by_cases ht : text = []
    · subst ht; simp [splitWS, splitWSAux]
    · rw [splitWS_no_ws text h ht]
      simp [wrap_loop, joinSp]

/-- For whitespace-free text the fit check reduces to the single-line
width and height conditions. -/
lemma can_fit_no_ws (text : List Char) (fs d : ℚ)
    (h : ∀ c ∈ text, pyIsSpace c = false) :
    (can_fit_with_wrapping text fs d).1 = true ↔
      (estimate_text_width text fs ≤ d * (19/20) ∧ fs ≤ d * (19/20)) := by
  obtain ⟨hiff, _⟩ := can_fit_spec text fs d
  rw [hiff, wrap_no_ws text fs d h]
  constructor
  · rintro ⟨h1, h2⟩
    refine ⟨h1 text (by simp), ?_⟩
    simp only [List.length_singleton] at h2
    have e : ((1:ℚ) - 1) * (fs * (6/5)) + fs = fs := by ring
    rw [Nat.cast_one, e] at h2
    exact h2
  · rintro ⟨h1, h2⟩
    refine ⟨by simpa using h1, ?_⟩
    simp only [List.length_singleton, Nat.cast_one]
    have e : ((1:ℚ) - 1) * (fs * (6/5)) + fs = fs := by ring
    rw [e]
    exact h2

/-- C1 (amended): for fixed whitespace-free text and fixed diameter,
`can_fit_with_wrapping` is monotonically non-increasing in font size:
if the text fits at font size S, it fits at every smaller size. -/
theorem can_fit_monotone_no_ws (text : List Char) (d s1 s2 : ℚ)
    (hws : ∀ c ∈ text, pyIsSpace c = false) (hle : s1 ≤ s2)
    (hfit : (can_fit_with_wrapping text s2 d).1 = true) :
    (can_fit_with_wrapping text s1 d).1 = true := by
  rw [can_fit_no_ws text s2 d hws] at hfit
  rw [can_fit_no_ws text s1 d hws]
  obtain ⟨h1, h2⟩ := hfit
  constructor
  · unfold estimate_text_width at h1 ⊢
    nlinarith [Nat.cast_nonneg (α := ℚ) text.length]
  · linarith

/-- Witness for the amended C1 at text "ab", sizes 1 ≤ 2, diameter 100. -/
theorem can_fit_monotone_no_ws_witness :
    (∀ c ∈ (['a', 'b'] : List Char), pyIsSpace c = false) ∧ (1:ℚ) ≤ 2 ∧
    (can_fit_with_wrapping ['a', 'b'] 2 100).1 = true ∧
    (can_fit_with_wrapping ['a', 'b'] 1 100).1 = true := by
  have hws : ∀ c ∈ (['a', 'b'] : List Char), pyIsSpace c = false := by decide
  have hfit : (can_fit_with_wrapping ['a', 'b'] 2 100).1 = true := by
    rw [can_fit_no_ws _ _ _ hws]
    norm_num [estimate_text_width]
  exact ⟨hws, by norm_num, hfit,
    can_fit_monotone_no_ws ['a', 'b'] 100 1 2 hws (by norm_num) hfit⟩

/-- Counterexample to C1 as stated: "aa bb" at diameter 3 fits at font
size 6/5 but not at the smaller font size 1 (at size 1 the text is
short enough to skip wrapping, and the single line fails the 0.95
safety-margin check). -/
theorem can_fit_not_monotone_counterexample :
    (1:ℚ) < 6/5 ∧
    (can_fit_with_wrapping ['a', 'a', ' ', 'b', 'b'] (6/5) 3).1 = true ∧
    (can_fit_with_wrapping ['a', 'a', ' ', 'b', 'b'] 1 3).1 = false := by
  have hsplit : splitWS ['a', 'a', ' ', 'b', 'b'] = [['a', 'a'], ['b', 'b']] := by decide
  have hwrap : wrap_text_to_fit_diameter ['a', 'a', ' ', 'b', 'b'] (6/5) 3 =
      [['a', 'a'], ['b', 'b']] := by
    norm_num [wrap_text_to_fit_diameter, estimate_text_width, hsplit, wrap_loop, joinSp]
    decide
  refine ⟨by norm_num, ?_, ?_⟩
  · norm_num [can_fit_with_wrapping, hwrap, estimate_text_width]
  · norm_num [can_fit_with_wrapping, wrap_text_to_fit_diameter, estimate_text_width]

/-! ### The binary-search solver -/

/-- The loop invariant: the running optimum and the right endpoint
never exceed a common bound. -/
lemma binary_search_loop_le (text : List Char) (d M l r o : ℚ)
    (ho : o ≤ M) (hr : r ≤ M) : binary_search_loop text d l r o ≤ M := by
  induction l, r, o using binary_search_loop.induct text d with
  | case1 l r o h hfit ih =>
    rw [binary_search_loop]
    simp only [dif_pos h, if_pos hfit]
    exact ih (by linarith) hr
  | case2 l r o h hfit ih =>
    rw [binary_search_loop]
    simp only [dif_pos h, if_neg hfit]
    exact ih ho (by linarith)
  | case3 l r o h =>
    rw [binary_search_loop]
    simp only [dif_neg h]
    exact ho

/-- If no size above `m` fits, the running optimum never rises above
`m`. -/
lemma binary_search_loop_le_of_unfit (text : List Char) (d m : ℚ)
    (hfit : ∀ x : ℚ, m < x → (can_fit_with_wrapping text x d).1 = false)
    (l r o : ℚ) (ho : o ≤ m) : binary_search_loop text d l r o ≤ m := by
  induction l, r, o using binary_search_loop.induct text d with
  | case1 l r o h hf ih =>
    rw [binary_search_loop]
    simp only [dif_pos h, if_pos hf]
    apply ih
    by_contra hgt
    push_neg at hgt
    rw [hfit _ hgt] at hf
    exact absurd hf (by simp)
  | case2 l r o h hf ih =>
    rw [binary_search_loop]
    simp only [dif_pos h, if_neg hf]
    exact ih ho
  | case3 l r o h =>
    rw [binary_search_loop]
    simp only [dif_neg h]
    exact ho

/-- The solver never returns less than its minimum. -/
lemma le_calculate_optimal (text : List Char) (d minF maxF : ℚ) :
    minF ≤ calculate_optimal_font_size text d minF maxF :=
  le_max_right _ _

/-- The solver never returns more than its maximum (when the range is
nonempty). -/
lemma calculate_optimal_le (text : List Char) (d minF maxF : ℚ) (h : minF ≤ maxF) :
    calculate_optimal_font_size text d minF maxF ≤ maxF :=
  max_le (binary_search_loop_le text d maxF minF maxF minF h le_rfl) h

/-- C4: for every text, diameter, and constraints with min ≤ max, the
font size returned by `calculate_optimal_font_size` lies within
[min, max] inclusive. -/
theorem solve_font_size_within_bounds (text : List Char)
    (node_diameter minF maxF : ℚ) (h : minF ≤ maxF) :
    minF ≤ calculate_optimal_font_size text node_diameter minF maxF ∧
    calculate_optimal_font_size text node_diameter minF maxF ≤ maxF :=
  ⟨le_calculate_optimal text node_diameter minF maxF,
    calculate_optimal_le text node_diameter minF maxF h⟩

/-- Witness for C4 at text "a", diameter 5, constraints [4, 10]. -/
theorem solve_font_size_within_bounds_witness :
    (4:ℚ) ≤ 10 ∧
    (4 ≤ calculate_optimal_font_size ['a'] 5 4 10 ∧
      calculate_optimal_font_size ['a'] 5 4 10 ≤ 10) :=
  ⟨by norm_num, solve_font_size_within_bounds ['a'] 5 4 10 (by norm_num)⟩

/-! ### Diameter zero -/

lemma estimate_text_width_pos (text : List Char) (fs : ℚ)
    (ht : text ≠ []) (hfs : 0 < fs) : 0 < estimate_text_width text fs := by
  unfold estimate_text_width
  have hlen : (0:ℚ) < (text.length : ℚ) := by
    exact_mod_cast List.length_pos.mpr ht
  nlinarith

/-- At diameter 0 (with positive font size and word gap) every word
overflows the current line, so the packing loop emits one line per
word. -/
lemma wrap_loop_zero (fs sw : ℚ) (hfs : 0 < fs) (hsw : 0 < sw) :
    ∀ (ws lines current : List (List Char)) (cw : ℚ), 0 ≤ cw →
    (∀ w ∈ ws, w ≠ []) →
    wrap_loop fs 0 sw ws lines current cw =
      lines ++ (if current = [] then [] else [joinSp current]) ++ ws := by
  intro ws
  induction ws with
  | nil =>
    intro lines current cw _ _
    simp only [wrap_loop]
    split
    · next hc => simp [hc]
    · next hc => simp [hc]
  | cons w rest ih =>
    intro lines current cw hcw hws
    have hw : w ≠ [] := hws w (by simp)
    have hww : 0 < estimate_text_width w fs := estimate_text_width_pos w fs hw hfs
    have hrest : ∀ x ∈ rest, x ≠ [] := fun x hx => hws x (by simp [hx])
    simp only [wrap_loop]
    by_cases hcur : current = []
    · rw [if_neg (by simp [hcur])]
      rw [ih lines (current ++ [w]) _ (by positivity) hrest]
      simp [hcur, joinSp]
    · rw [if_pos ⟨hcur, by linarith⟩]
      rw [ih (lines ++ [joinSp current]) [w] _ (le_of_lt hww) hrest]
      simp [hcur, joinSp]

/-- At diameter 0 the wrapper splits a nonempty text into one line per
word (or keeps it whole if it has no words). -/
lemma wrap_zero (text : List Char) (fs : ℚ) (hfs : 0 < fs) (ht : text ≠ []) :
    wrap_text_to_fit_diameter text fs 0 =
      if splitWS text = [] then [text] else splitWS text := by
  unfold wrap_text_to_fit_diameter
  rw [if_neg (by simpa using estimate_text_width_pos text fs ht hfs)]
  by_cases hsp : splitWS text = []
  · simp [hsp]
  · rw [if_neg hsp, if_neg hsp]
    rw [wrap_loop_zero fs (fs * (3/10)) hfs (by positivity) (splitWS text) [] [] 0 le_rfl
      (fun w hw => (splitWS_good text w hw).1)]
    simp

/-- At diameter 0 no positive font size fits a nonempty text. -/
lemma can_fit_zero_false (text : List Char) (ht : text ≠ []) (x : ℚ) (hx : 0 < x) :
    (can_fit_with_wrapping text x 0).1 = false := by
  obtain ⟨hiff, -⟩ := can_fit_spec text x 0
  have hnot : ¬ ((can_fit_with_wrapping text x 0).1 = true) := by
    rw [hiff]
    rintro ⟨hall, -⟩
    rw [wrap_zero text x hx ht] at hall
    by_cases hsp : splitWS text = []
    · have h1 := hall text (by simp [hsp])
      have h2 := estimate_text_width_pos text x ht hx
      rw [zero_mul] at h1
      linarith
    · cases hs : splitWS text with
      | nil => exact absurd hs hsp
      | cons w ws =>
        have hw : w ≠ [] := (splitWS_good text w (by simp [hs])).1
        have h1 := hall w (by simp [hsp, hs])
        have h2 := estimate_text_width_pos w x hw hx
        rw [zero_mul] at h1
        linarith
  exact Bool.eq_false_iff.mpr hnot

/-- Counterexample to C3 as stated: at diameter 0 with text "a b" and
constraints [4, 100] the solver does return the minimum 4, but the
label then receives one line per word, not the full unwrapped text as
a single line. -/
theorem diameter_zero_counterexample :
    calculate_optimal_font_size ['a', ' ', 'b'] 0 4 100 = 4 ∧
    finalLines ['a', ' ', 'b'] (calculate_optimal_font_size ['a', ' ', 'b'] 0 4 100) 0 =
      [['a'], ['b']] ∧
    [['a'], ['b']] ≠ [['a', ' ', 'b']] := by
  have hsolve : calculate_optimal_font_size ['a', ' ', 'b'] 0 4 100 = 4 := by
    unfold calculate_optimal_font_size
    exact max_eq_right (binary_search_loop_le_of_unfit _ 0 4
      (fun x hx => can_fit_zero_false _ (by decide) x (by linarith)) 4 100 4 le_rfl)
  refine ⟨hsolve, ?_, by decide⟩
  rw [hsolve]
  unfold finalLines
  rw [if_pos (by simpa using estimate_text_width_pos ['a', ' ', 'b'] 4 (by decide) (by norm_num))]
  rw [wrap_zero _ 4 (by norm_num) (by decide)]
  decide

/-- C3 (amended): for every non-empty text and constraints with
0 ≤ min ≤ max, at node diameter 0 the solver returns `constraints.min`
as the font size, and the label receives the greedy wrap of the text
at that size and diameter 0 — one line per word for multi-word text;
the full unwrapped text as a single line only when the text has no
words or the minimum is 0. -/
theorem diameter_zero_degrades (text : List Char) (minF maxF : ℚ)
    (ht : text ≠ []) (h0 : 0 ≤ minF) (_hmm : minF ≤ maxF) :
    calculate_optimal_font_size text 0 minF maxF = minF ∧
    finalLines text minF 0 =
      (if 0 < minF ∧ splitWS text ≠ [] then splitWS text else [text]) := by
  constructor
  · unfold calculate_optimal_font_size
    exact max_eq_right (binary_search_loop_le_of_unfit text 0 minF
      (fun x hx => can_fit_zero_false text ht x (lt_of_le_of_lt h0 hx)) minF maxF minF le_rfl)
  · rcases lt_or_eq_of_le h0 with hpos | hzero
    · unfold finalLines
      rw [if_pos (by simpa using estimate_text_width_pos text minF ht hpos)]
      rw [wrap_zero text minF hpos ht]
      by_cases hsp : splitWS text = [] <;> simp [hsp, hpos]
    · rw [← hzero]
      simp [finalLines, estimate_text_width]

/-- Witness for the amended C3 at text "a b", constraints [4, 100]. -/
theorem diameter_zero_degrades_witness :
    (['a', ' ', 'b'] : List Char) ≠ [] ∧ (0:ℚ) ≤ 4 ∧ (4:ℚ) ≤ 100 ∧
    (calculate_optimal_font_size ['a', ' ', 'b'] 0 4 100 = 4 ∧
      finalLines ['a', ' ', 'b'] 4 0 =
        (if 0 < (4:ℚ) ∧ splitWS ['a', ' ', 'b'] ≠ [] then splitWS ['a', ' ', 'b']
         else [['a', ' ', 'b']])) :=
  ⟨by decide, by norm_num, by norm_num,
    diameter_zero_degrades ['a', ' ', 'b'] 4 100 (by decide) (by norm_num) (by norm_num)⟩

/-! ### Minimum over a list, truncation -/

lemma foldl_min_mem : ∀ (xs : List ℚ) (a : ℚ), xs.foldl min a ∈ a :: xs := by
  intro xs
  induction xs with
  | nil => intro a; simp
  | cons x xs ih =>
    intro a
    rw [List.foldl_cons]
    rcases List.mem_cons.mp (ih (min a x)) with h | h
    · rw [h]
      rcases min_choice a x with h1 | h1 <;> rw [h1] <;> simp
    · exact List.mem_cons_of_mem _ (List.mem_cons_of_mem _ h)

lemma foldl_min_le : ∀ (xs : List ℚ) (a : ℚ),
    xs.foldl min a ≤ a ∧ ∀ s ∈ xs, xs.foldl min a ≤ s := by
  intro xs
  induction xs with
  | nil => intro a; exact ⟨le_rfl, by simp⟩
  | cons x xs ih =>
    intro a
    rw [List.foldl_cons]
    obtain ⟨h1, h2⟩ := ih (min a x)
    refine ⟨h1.trans (min_le_left a x), ?_⟩
    intro s hs
    rcases List.mem_cons.mp hs with h | h
    · exact h ▸ h1.trans (min_le_right a x)
    · exact h2 s h

lemma listMin_mem (l : List ℚ) (h : l ≠ []) : listMin l ∈ l := by
  cases l with
  | nil => exact absurd rfl h
  | cons x xs => exact foldl_min_mem xs x

lemma listMin_le (l : List ℚ) (s : ℚ) (hs : s ∈ l) : listMin l ≤ s := by
  cases l with
  | nil => simp at hs
  | cons x xs =>
    rcases List.mem_cons.mp hs with h | h
    · exact h ▸ (foldl_min_le xs x).1
    · exact (foldl_min_le xs x).2 s h

lemma pyInt_le_self (q : ℚ) (h : 0 ≤ q) : ((pyInt q : ℤ) : ℚ) ≤ q := by
  unfold pyInt
  rw [if_neg (not_lt.mpr h)]
  exact Int.floor_le q

lemma pyInt_mono_nonneg (x y : ℚ) (hx : 0 ≤ x) (hxy : x ≤ y) :
    pyInt x ≤ pyInt y := by
  unfold pyInt
  rw [if_neg (not_lt.mpr hx), if_neg (not_lt.mpr (hx.trans hxy))]
  exact Int.floor_le_floor hxy

/-! ### The two-phase ceiling pass -/

/-- C6: after the two-phase ceiling pass (the achievable max computed
by solving on the largest-diameter node's text, every label then
re-solved with that value as its maximum), no label's computed font
size exceeds the achievable max computed for the largest-diameter
node. -/
theorem ceiling_bounds_all_labels (labels : List (List Char × ℚ)) (maxD : ℚ)
    (minF : Option ℚ) (maxF A : ℚ) (t text : List Char) (fs d : ℚ)
    (hd : 0 < maxD) (hmin : 0 ≤ minF.getD 4)
    (ht : findMaxText labels maxD = some t)
    (hA : computeActualMax labels maxD minF maxF = some A) :
    labelOptimalSize text fs d minF (some A) ≤ A := by
  unfold computeActualMax at hA
  rw [if_pos hd, ht] at hA
  have hAeq : A = calculate_optimal_font_size t maxD (minF.getD 4) maxF :=
    (Option.some_injective _ hA).symm
  have hAge : minF.getD 4 ≤ A := hAeq ▸ le_max_right _ _
  have hA0 : 0 ≤ A := le_trans hmin hAge
  have hcmaxA : calcMaxFont (some A) ≤ A := by
    unfold calcMaxFont
    exact pyInt_le_self A hA0
  have hcmin : calcMinFont minF ≤ calcMaxFont (some A) := by
    cases minF with
    | none =>
      have h4 : (4:ℚ) ≤ A := by simpa using hAge
      have h5 : (4:ℤ) ≤ pyInt A := by
        unfold pyInt
        rw [if_neg (not_lt.mpr hA0)]
        exact Int.le_floor.mpr (by exact_mod_cast h4)
      simp only [calcMinFont, calcMaxFont]
      exact_mod_cast h5
    | some m =>
      have hm0 : 0 ≤ m := by simpa using hmin
      have hmA : m ≤ A := by simpa using hAge
      simp only [calcMinFont, calcMaxFont]
      exact_mod_cast pyInt_mono_nonneg m A hm0 hmA
  simp only [labelOptimalSize]
  split
  · next hlen =>
    have hne : (finalLines text fs d).map (fun line =>
        calculate_optimal_font_size line d (calcMinFont minF) (calcMaxFont (some A))) ≠ [] := by
      intro hnil
      rw [List.map_eq_nil_iff] at hnil
      rw [hnil] at hlen
      simp at hlen
    obtain ⟨ln, _, heq⟩ := List.mem_map.mp (listMin_mem _ hne)
    rw [← heq]
    exact le_trans (calculate_optimal_le ln d _ _ hcmin) hcmaxA
  · exact le_trans (calculate_optimal_le text d _ _ hcmin) hcmaxA

/-- Witness for C6: one label "ab" on the largest node (diameter 10),
supplied max 4, per-node label "x" of diameter 3. -/
theorem ceiling_bounds_all_labels_witness :
    (0:ℚ) < 10 ∧ (0:ℚ) ≤ (Option.getD (none : Option ℚ) 4) ∧
    findMaxText [(['a', 'b'], 10)] 10 = some ['a', 'b'] ∧
    computeActualMax [(['a', 'b'], 10)] 10 none 4 = some 4 ∧
    labelOptimalSize ['x'] 12 3 none (some 4) ≤ 4 := by
  have hstrip : pyStrip ['a', 'b'] = ['a', 'b'] := by decide
  have ht : findMaxText [(['a', 'b'], 10)] 10 = some ['a', 'b'] := by
    rw [findMaxText, if_pos]
    · rw [hstrip]
    · exact ⟨by norm_num, by rw [hstrip]; decide⟩
  have hcalc : calculate_optimal_font_size ['a', 'b'] 10 4 4 = 4 :=
    le_antisymm (calculate_optimal_le _ _ _ _ le_rfl) (le_calculate_optimal _ _ _ _)
  have hA : computeActualMax [(['a', 'b'], 10)] 10 none 4 = some 4 := by
    unfold computeActualMax
    rw [if_pos (by norm_num), ht]
    simp only [Option.getD]
    rw [hcalc]
  exact ⟨by norm_num, by simp, ht, hA,
    ceiling_bounds_all_labels [(['a', 'b'], 10)] 10 none 4 4 ['a', 'b'] ['x'] 12 3
      (by norm_num) (by simp) ht hA⟩

/-! ### Multi-line labels -/

/-- C7: for every label whose wrap at its current font size yields
more than one line, the solver is run independently on each of those
lines and the label's final font size equals the minimum over all
per-line optimal sizes (it is one of them and is a lower bound of all
of them). -/
theorem multi_line_takes_min (text : List Char) (font_size node_diameter : ℚ)
    (minF actualMax : Option ℚ)
    (h : 1 < (finalLines text font_size node_diameter).length) :
    labelOptimalSize text font_size node_diameter minF actualMax ∈
      (finalLines text font_size node_diameter).map (fun line =>
        calculate_optimal_font_size line node_diameter (calcMinFont minF)
          (calcMaxFont actualMax)) ∧
    ∀ s ∈ (finalLines text font_size node_diameter).map (fun line =>
        calculate_optimal_font_size line node_diameter (calcMinFont minF)
          (calcMaxFont actualMax)),
      labelOptimalSize text font_size node_diameter minF actualMax ≤ s := by
  have hR : labelOptimalSize text font_size node_diameter minF actualMax =
      listMin ((finalLines text font_size node_diameter).map (fun line =>
        calculate_optimal_font_size line node_diameter (calcMinFont minF)
          (calcMaxFont actualMax))) := by
    simp only [labelOptimalSize]
    rw [if_pos h]
  have hne : (finalLines text font_size node_diameter).map (fun line =>
      calculate_optimal_font_size line node_diameter (calcMinFont minF)
        (calcMaxFont actualMax)) ≠ [] := by
    intro hnil
    rw [List.map_eq_nil_iff] at hnil
    rw [hnil] at h
    simp at h
  rw [hR]
  exact ⟨listMin_mem _ hne, fun s hs => listMin_le _ s hs⟩

/-- Witness for C7 at text "aa bb", current size 12, diameter 3. -/
theorem multi_line_takes_min_witness :
    1 < (finalLines ['a', 'a', ' ', 'b', 'b'] 12 3).length ∧
    (labelOptimalSize ['a', 'a', ' ', 'b', 'b'] 12 3 none none ∈
      (finalLines ['a', 'a', ' ', 'b', 'b'] 12 3).map (fun line =>
        calculate_optimal_font_size line 3 (calcMinFont none) (calcMaxFont none)) ∧
      ∀ s ∈ (finalLines ['a', 'a', ' ', 'b', 'b'] 12 3).map (fun line =>
        calculate_optimal_font_size line 3 (calcMinFont none) (calcMaxFont none)),
        labelOptimalSize ['a', 'a', ' ', 'b', 'b'] 12 3 none none ≤ s) := by
  have hsplit : splitWS ['a', 'a', ' ', 'b', 'b'] = [['a', 'a'], ['b', 'b']] := by decide
  have hfl : finalLines ['a', 'a', ' ', 'b', 'b'] 12 3 = [['a', 'a'], ['b', 'b']] := by
    norm_num [finalLines, wrap_text_to_fit_diameter, estimate_text_width, hsplit,
      wrap_loop, joinSp]
    decide
  have h : 1 < (finalLines ['a', 'a', ' ', 'b', 'b'] 12 3).length := by
    rw [hfl]; norm_num
  exact ⟨h, multi_line_takes_min ['a', 'a', ' ', 'b', 'b'] 12 3 none none h⟩

/-! ### Normalization and font-size parsing in the document pass -/

lemma parseFloat_12 : parseFloat ['1', '2'] = some 12 := by decide

/-- Counterexample to C2 as stated: on raw label text "aB" the pass
produces the line "Ab" — Python `capitalize` lowercases the characters
after the first — whereas uppercasing only the first character and
leaving the rest as in the raw input would give "AB". -/
theorem capitalize_counterexample :
    processLabel ['a', 'B'] none 100 false none none =
      LabelOutcome.processed 12 [['A', 'b']] ∧
    pyCapitalize ['a', 'B'] ≠ upperFirstOnly ['a', 'B'] ∧
    upperFirstOnly ['a', 'B'] = ['A', 'B'] := by
  have h1 : pyStrip ['a', 'B'] = ['a', 'B'] := by decide
  have h2 : pyCapitalize ['a', 'B'] = ['A', 'b'] := by decide
  have h4 : finalLines ['A', 'b'] (12:ℚ) 100 = [['A', 'b']] := by
    unfold finalLines
    rw [if_neg (by norm_num [estimate_text_width])]
  refine ⟨?_, by decide, by decide⟩
  unfold processLabel
  rw [h1, if_neg (by decide : ¬ (['a', 'B'] : List Char) = [])]
  simp only [Option.getD, parseFloat_12, h2]
  simp only [Bool.false_eq_true, if_false]
  rw [h4]

/-- C2 (amended): the normalization applied before any width or wrap
computation is Python `capitalize` — it uppercases the first character
and lowercases the remaining characters — and it is applied exactly
once: the document pass on a raw label equals the capitalization-free
core applied to the capitalized stripped text, so all wrapping and
sizing is computed on that normalized string. -/
theorem capitalize_applied_once (raw : List Char) (fsAttr : Option (List Char))
    (node_diameter : ℚ) (auto : Bool) (minF actualMax : Option ℚ) :
    processLabel raw fsAttr node_diameter auto minF actualMax =
      labelCore (pyCapitalize (pyStrip raw)) fsAttr node_diameter auto minF actualMax ∧
    ∀ (c : Char) (cs : List Char),
      pyCapitalize (c :: cs) = c.toUpper :: cs.map Char.toLower := by
  constructor
  · unfold processLabel labelCore
    cases hs : pyStrip raw with
    | nil => simp [pyCapitalize]
    | cons c cs =>
      rw [if_neg (by simp), if_neg (by simp [pyCapitalize])]
      unfold labelSizingCore
      rfl
  · intro c cs
    rfl

/-- Counterexample to C9 as stated: an unparseable font-size attribute
"abc" makes the pass raise (ValueError escapes), it does not fall back
to 12; the fallback 12 is used only when the attribute is missing. -/
theorem font_size_fallback_counterexample :
    processLabel ['x'] (some ['a', 'b', 'c']) 5 false none none =
      LabelOutcome.crashed ∧
    processLabel ['x'] none 5 false none none =
      LabelOutcome.processed 12 [['X']] ∧
    LabelOutcome.crashed ≠ LabelOutcome.processed 12 [['X']] := by
  have h1 : pyStrip ['x'] = ['x'] := by decide
  have h2 : pyCapitalize ['x'] = ['X'] := by decide
  have hbad : parseFloat ['a', 'b', 'c'] = none := by decide
  have hfl : finalLines ['X'] (12:ℚ) 5 = [['X']] := by
    unfold finalLines
    rw [if_pos (by norm_num [estimate_text_width]), wrap_no_ws _ _ _ (by decide)]
  refine ⟨?_, ?_, by decide⟩
  · unfold processLabel
    rw [h1, if_neg (by decide : ¬ (['x'] : List Char) = [])]
    simp only [Option.getD, hbad]
  · unfold processLabel
    rw [h1, if_neg (by decide : ¬ (['x'] : List Char) = [])]
    simp only [Option.getD, parseFloat_12, h2]
    simp only [Bool.false_eq_true, if_false]
    rw [hfl]

/-- C9 (amended): if a processed label's font-size attribute is
missing, the fixed fallback value 12 is used as the current font size
before the solver runs; if the attribute is present but unparseable,
the pass raises instead of falling back. -/
theorem font_size_default_or_error :
    (∀ (raw : List Char) (node_diameter : ℚ) (auto : Bool) (minF actualMax : Option ℚ),
      pyStrip raw ≠ [] →
      processLabel raw none node_diameter auto minF actualMax =
        labelSizingCore (pyCapitalize (pyStrip raw)) 12 node_diameter auto minF actualMax) ∧
    (∀ (raw s : List Char) (node_diameter : ℚ) (auto : Bool) (minF actualMax : Option ℚ),
      pyStrip raw ≠ [] → parseFloat s = none →
      processLabel raw (some s) node_diameter auto minF actualMax =
        LabelOutcome.crashed) := by
  constructor
  · intro raw d auto minF aMax hne
    unfold processLabel
    rw [if_neg hne]
    simp only [Option.getD, parseFloat_12]
    rfl
  · intro raw s d auto minF aMax hne hbad
    unfold processLabel
    rw [if_neg hne]
    simp only [Option.getD, hbad]

/-- Witness for the amended C9 at raw text "x" and attribute "a". -/
theorem font_size_default_or_error_witness :
    pyStrip ['x'] ≠ [] ∧ parseFloat ['a'] = none ∧
    processLabel ['x'] none 7 false none none =
      labelSizingCore (pyCapitalize (pyStrip ['x'])) 12 7 false none none ∧
    processLabel ['x'] (some ['a']) 7 false none none = LabelOutcome.crashed :=
  ⟨by decide, by decide,
    font_size_default_or_error.1 ['x'] 7 false none none (by decide),
    font_size_default_or_error.2 ['x'] ['a'] 7 false none none (by decide) (by decide)⟩

/-! ### Integer truncation of the constraint bounds -/

/-- C10: with auto font sizing on, the constraint bounds handed to the
solver are truncated to integers; concretely, a supplied minimum of
4.5 becomes 4, and on a label that fits nothing above the minimum the
assigned font size 4 lies below the supplied minimum 4.5. -/
theorem constraint_bounds_truncated :
    calcMinFont (some (9/2)) = 4 ∧
    processLabel ['a', 'b', 'c'] (some ['1', '2']) 1 true (some (9/2)) none =
      LabelOutcome.processed 4 [['A', 'b', 'c']] ∧
    (4:ℚ) < 9/2 := by
  have hcm : calcMinFont (some (9/2)) = 4 := by
    simp only [calcMinFont, pyInt]
    rw [if_neg (by norm_num)]
    norm_num
  have hws : ∀ c ∈ (['A', 'b', 'c'] : List Char), pyIsSpace c = false := by decide
  have h1 : pyStrip ['a', 'b', 'c'] = ['a', 'b', 'c'] := by decide
  have h2 : pyCapitalize ['a', 'b', 'c'] = ['A', 'b', 'c'] := by decide
  have hfl12 : finalLines ['A', 'b', 'c'] (12:ℚ) 1 = [['A', 'b', 'c']] := by
    unfold finalLines
    rw [if_pos (by norm_num [estimate_text_width]), wrap_no_ws _ _ _ hws]
  have hnofit : ∀ x : ℚ, (4:ℚ) < x →
      (can_fit_with_wrapping ['A', 'b', 'c'] x 1).1 = false := by
    intro x hx
    refine Bool.eq_false_iff.mpr (fun hh => ?_)
    rw [can_fit_no_ws _ _ _ hws] at hh
    obtain ⟨-, hh2⟩ := hh
    linarith
  have hcalc : calculate_optimal_font_size ['A', 'b', 'c'] 1 4 100 = 4 := by
    refine le_antisymm ?_ (le_calculate_optimal _ _ _ _)
    unfold calculate_optimal_font_size
    exact max_le (binary_search_loop_le_of_unfit _ _ _ hnofit 4 100 4 le_rfl) le_rfl
  have hopt : labelOptimalSize ['A', 'b', 'c'] 12 1 (some (9/2)) none = 4 := by
    simp only [labelOptimalSize, hfl12]
    rw [if_neg (by norm_num)]
    rw [hcm]
    simp only [calcMaxFont]
    exact hcalc
  have hfl4 : finalLines ['A', 'b', 'c'] (4:ℚ) 1 = [['A', 'b', 'c']] := by
    unfold finalLines
    rw [if_pos (by norm_num [estimate_text_width]), wrap_no_ws _ _ _ hws]
  refine ⟨hcm, ?_, by norm_num⟩
  unfold processLabel
  rw [h1, if_neg (by decide : ¬ (['a', 'b', 'c'] : List Char) = [])]
  simp only [Option.getD, parseFloat_12, h2]
  simp only [if_true]
  rw [hopt, hfl4]

end LegendGephi
